import Mathlib

/-!
Verification of the lock-free SPSC handoff primitives of the `brainstorm`
repository.

The repository has three source files:

* `src/ephemeral/spsc.rs` — `SPSCEphemeral<T, const N: usize>`, a circular
  buffer of `N` slots (`N-1` usable) coordinated by a `head`/`tail` index
  pair, with free functions `sink_value` (try-push) and `spit_value`
  (try-pop);
* `src/ephemeral/smsc.rs` — `EphemeralBuffer<T>`, the same algorithm with the
  capacity fixed by `const N: usize = 16`;
* `src/main.rs` — `EphemeralSource<T>`, a one-slot mailbox coordinated by a
  single atomic boolean `packed`, with methods `set` and `get`.

The shallow embedding models the sequential (single-thread-interleaved)
semantics of these operations.  The `MaybeUninit<T>` slot array is modelled
as a `List T` of length `N` whose cells initially hold the `default` junk
value of an `Inhabited` type: reading a never-written cell returns junk,
exactly as the Rust `MaybeUninit::uninit().assume_init()` storage holds
arbitrary bytes.  Rust's `usize` indices stay below `N` in every reachable
state (proved below), so plain `Nat` models them with no overflow concern,
and `List.set` / `List.getD` agree with the Rust slot accesses whenever the
index is in bounds.  Atomic load/store memory-ordering annotations carry no
meaning in a sequential embedding; they are transcribed separately as data
(`MemOrdering` below) so that claims about which orderings the code uses can
be settled against the source text.
-/

namespace Brainstorm

namespace spsc

/-- Embedding of `SPSCEphemeral<T, const N: usize>` from `src/ephemeral/spsc.rs`:
`bufr` is the `UnsafeCell<[MaybeUninit<T>; N]>` arena, `head` the read index,
`tail` the write index. -/
structure SPSCEphemeral (T : Type) (N : Nat) where
  bufr : List T
  head : Nat
  tail : Nat
deriving DecidableEq, Repr

/-- Embedding of `SPSCEphemeral::new()`: both indices zero, the arena filled
with junk (uninitialized) cells, modelled by the `default` element. -/
def SPSCEphemeral.new (T : Type) [Inhabited T] (N : Nat) : SPSCEphemeral T N :=
  ⟨List.replicate N default, 0, 0⟩

/-- Embedding of `sink_value` (`src/ephemeral/spsc.rs` lines 27-41).  Returns
the Rust return value (`Result<(), T>` as `Except T Unit`) together with the
post-state of the buffer. -/
def sink_value {T : Type} {N : Nat} (b : SPSCEphemeral T N) (val : T) :
    Except T Unit × SPSCEphemeral T N :=
  let head := b.head
  let tail := b.tail
  let next := (tail + 1) % N
  if next = head then
    (Except.error val, b)
  else
    (Except.ok (), ⟨b.bufr.set tail val, head, next⟩)

/-- Embedding of `spit_value` (`src/ephemeral/spsc.rs` lines 43-56).  The
plain read `(*b.bufr.get())[head].as_ptr().read()` is modelled by
`List.getD _ _ default`, which returns the junk `default` if the cell was
never written (in Rust that read would yield arbitrary bytes; it is
unreachable from the initial state, as proved below). -/
def spit_value {T : Type} {N : Nat} [Inhabited T] (b : SPSCEphemeral T N) :
    Option T × SPSCEphemeral T N :=
  let head := b.head
  let tail := b.tail
  let next := (head + 1) % N
  if head = tail then
    (none, b)
  else
    (some (b.bufr.getD head default), ⟨b.bufr, next, tail⟩)

end spsc

/-- One call made by a client of the ring: either `sink_value v` or
`spit_value`. -/
inductive Op (T : Type) where
  | sink (v : T)
  | spit
deriving DecidableEq, Repr

namespace spsc

/-- State of a sequential client session: the ring `st`, the list `acc` of
values accepted so far (those for which `sink_value` returned `Ok`), and the
list `pop` of values returned so far by successful `spit_value` calls. -/
structure RunState (T : Type) (N : Nat) where
  st : SPSCEphemeral T N
  acc : List T
  pop : List T
deriving DecidableEq, Repr

/-- Execute one call against the ring, recording accepted and popped values. -/
def stepTrace {T : Type} {N : Nat} [Inhabited T] (r : RunState T N) (op : Op T) :
    RunState T N :=
  match op with
  | Op.sink v =>
      let p := sink_value r.st v
      match p.1 with
      | Except.ok _ => ⟨p.2, r.acc ++ [v], r.pop⟩
      | Except.error _ => ⟨p.2, r.acc, r.pop⟩
  | Op.spit =>
      let p := spit_value r.st
      match p.1 with
      | some v => ⟨p.2, r.acc, r.pop ++ [v]⟩
      | none => ⟨p.2, r.acc, r.pop⟩

/-- Execute a sequence of calls starting from the freshly constructed ring. -/
def runTrace {T : Type} (N : Nat) [Inhabited T] (ops : List (Op T)) : RunState T N :=
  ops.foldl stepTrace ⟨SPSCEphemeral.new T N, [], []⟩

/-- Structural well-formedness of a ring state: the arena has exactly `N`
cells and both indices are in bounds (so the Rust slot accesses
`bufr[tail]` / `bufr[head]` cannot panic). -/
def Inv {T : Type} {N : Nat} (b : SPSCEphemeral T N) : Prop :=
  b.bufr.length = N ∧ b.head < N ∧ b.tail < N

instance {T : Type} {N : Nat} [DecidableEq T] (b : SPSCEphemeral T N) :
    Decidable (Inv b) := by
  unfold Inv; infer_instance

/-- Logical FIFO content of the ring: the values stored in the slots of the
half-open index range `[head, tail)` taken modulo `N`, in ring order. -/
def contents {T : Type} {N : Nat} [Inhabited T] (b : SPSCEphemeral T N) : List T :=
  (List.range ((b.tail + N - b.head) % N)).map
    (fun i => b.bufr.getD ((b.head + i) % N) default)

/-- Push each value of a list in turn, collecting the returned results. -/
def sinkSeq {T : Type} {N : Nat} (b : SPSCEphemeral T N) :
    List T → List (Except T Unit) × SPSCEphemeral T N
  | [] => ([], b)
  | v :: vs =>
      let p := sink_value b v
      let q := sinkSeq p.2 vs
      (p.1 :: q.1, q.2)

/-- Pop `k` times in a row, collecting the values delivered. -/
def spitSeq {T : Type} {N : Nat} [Inhabited T] (b : SPSCEphemeral T N) :
    Nat → List T × SPSCEphemeral T N
  | 0 => ([], b)
  | k + 1 =>
      let p := spit_value b
      let q := spitSeq p.2 k
      (p.1.toList ++ q.1, q.2)

end spsc

namespace smsc

/-- Transcription of `const N: usize = 16` from `src/ephemeral/smsc.rs`. -/
def N : Nat := 16

/-- Embedding of `EphemeralBuffer<T>` from `src/ephemeral/smsc.rs`: the same
layout as `SPSCEphemeral` with the arena size fixed at 16. -/
structure EphemeralBuffer (T : Type) where
  ring : List T
  head : Nat
  tail : Nat
deriving DecidableEq, Repr

/-- Embedding of `EphemeralBuffer::new()`. -/
def EphemeralBuffer.new (T : Type) [Inhabited T] : EphemeralBuffer T :=
  ⟨List.replicate N default, 0, 0⟩

/-- Embedding of `sink_value` (`src/ephemeral/smsc.rs` lines 27-41). -/
def sink_value {T : Type} (b : EphemeralBuffer T) (val : T) :
    Except T Unit × EphemeralBuffer T :=
  let head := b.head
  let tail := b.tail
  let next := (tail + 1) % N
  if next = head then
    (Except.error val, b)
  else
    (Except.ok (), ⟨b.ring.set tail val, head, next⟩)

/-- Embedding of `spit_value` (`src/ephemeral/smsc.rs` lines 43-56). -/
def spit_value {T : Type} [Inhabited T] (b : EphemeralBuffer T) :
    Option T × EphemeralBuffer T :=
  let head := b.head
  let tail := b.tail
  let next := (head + 1) % N
  if head = tail then
    (none, b)
  else
    (some (b.ring.getD head default), ⟨b.ring, next, tail⟩)

/-- Correspondence map from the fixed-16 buffer to the generic ring at
capacity 16: identical fields. -/
def toGeneric {T : Type} (b : EphemeralBuffer T) : spsc.SPSCEphemeral T 16 :=
  ⟨b.ring, b.head, b.tail⟩

/-- Client-session state for the fixed-16 buffer, mirroring
`spsc.RunState`. -/
structure RunState (T : Type) where
  st : EphemeralBuffer T
  acc : List T
  pop : List T
deriving DecidableEq, Repr

/-- Execute one call against the fixed-16 buffer, recording accepted and
popped values. -/
def stepTrace {T : Type} [Inhabited T] (r : RunState T) (op : Op T) : RunState T :=
  match op with
  | Op.sink v =>
      let p := sink_value r.st v
      match p.1 with
      | Except.ok _ => ⟨p.2, r.acc ++ [v], r.pop⟩
      | Except.error _ => ⟨p.2, r.acc, r.pop⟩
  | Op.spit =>
      let p := spit_value r.st
      match p.1 with
      | some v => ⟨p.2, r.acc, r.pop ++ [v]⟩
      | none => ⟨p.2, r.acc, r.pop⟩

/-- Execute a sequence of calls starting from the freshly constructed
fixed-16 buffer. -/
def runTrace {T : Type} [Inhabited T] (ops : List (Op T)) : RunState T :=
  ops.foldl stepTrace ⟨EphemeralBuffer.new T, [], []⟩

end smsc

/-- Embedding of `EphemeralSource<T>` from `src/main.rs`: a one-slot mailbox.
`value` is the `UnsafeCell<MaybeUninit<T>>` slot (junk until first written),
`packed` the atomic occupancy flag. -/
structure EphemeralSource (T : Type) where
  value : T
  packed : Bool
deriving DecidableEq, Repr

/-- Embedding of `EphemeralSource::new()`. -/
def EphemeralSource.new (T : Type) [Inhabited T] : EphemeralSource T :=
  ⟨default, false⟩

/-- Embedding of `EphemeralSource::set` (`src/main.rs` lines 22-28) as seen
by its caller once the spin loop has exited, i.e. the effect of one complete
call under the precondition `packed = false` (when `packed` is `true` the
Rust call spins until the single consumer clears the flag; the spin itself
has no state effect). -/
def EphemeralSource.set {T : Type} (_s : EphemeralSource T) (v : T) :
    EphemeralSource T :=
  ⟨v, true⟩

/-- Embedding of `EphemeralSource::get` (`src/main.rs` lines 30-37). -/
def EphemeralSource.get {T : Type} (s : EphemeralSource T) :
    Option T × EphemeralSource T :=
  if !s.packed then
    (none, s)
  else
    (some s.value, ⟨s.value, false⟩)

/-! ### List and modular-arithmetic helper lemmas -/

theorem getD_set_ne {α : Type} (l : List α) {i j : Nat} (h : i ≠ j) (a d : α) :
    (l.set i a).getD j d = l.getD j d := by
  simp [List.getD_eq_getElem?_getD, List.getElem?_set_ne h]

theorem getD_set_self {α : Type} (l : List α) {i : Nat} (h : i < l.length) (a d : α) :
    (l.set i a).getD i d = a := by
  simp [List.getD_eq_getElem?_getD, List.getElem?_set_self',
    List.getElem?_eq_getElem h]

theorem ring_dist_zero {N h t : Nat} (hh : h < N) (ht : t < N) :
    (t + N - h) % N = 0 ↔ h = t := by
  rcases le_or_lt h t with hle | hlt
  · have e : t + N - h = (t - h) + N := by omega
    rw [e, Nat.add_mod_right, Nat.mod_eq_of_lt (show t - h < N by omega)]
    omega
  · rw [Nat.mod_eq_of_lt (show t + N - h < N by omega)]
    omega

theorem ring_dist_sink {N h t : Nat} (hh : h < N) (ht : t < N)
    (hne : (t + 1) % N ≠ h) :
    ((t + 1) % N + N - h) % N = (t + N - h) % N + 1 := by
  rcases Nat.lt_or_ge (t + 1) N with hlt | hge
  · rw [Nat.mod_eq_of_lt hlt] at hne ⊢
    rcases le_or_lt h t with hle | hgt
    · have e1 : t + 1 + N - h = (t + 1 - h) + N := by omega
      have e2 : t + N - h = (t - h) + N := by omega
      rw [e1, e2, Nat.add_mod_right, Nat.add_mod_right,
        Nat.mod_eq_of_lt (show t + 1 - h < N by omega),
        Nat.mod_eq_of_lt (show t - h < N by omega)]
      omega
    · rw [Nat.mod_eq_of_lt (show t + 1 + N - h < N by omega),
        Nat.mod_eq_of_lt (show t + N - h < N by omega)]
      omega
  · have hEq : t + 1 = N := by omega
    have h0 : (t + 1) % N = 0 := by rw [hEq, Nat.mod_self]
    rw [h0] at hne ⊢
    have e1 : (0 + N - h) % N = 0 + N - h :=
      Nat.mod_eq_of_lt (by omega)
    have e2 : t + N - h = (t - h) + N := by omega
    rw [e1, e2, Nat.add_mod_right, Nat.mod_eq_of_lt (show t - h < N by omega)]
    omega

theorem ring_slot_sink {N h t : Nat} (hh : h < N) (ht : t < N) :
    (h + (t + N - h) % N) % N = t := by
  rcases le_or_lt h t with hle | hgt
  · have e : t + N - h = (t - h) + N := by omega
    rw [e, Nat.add_mod_right, Nat.mod_eq_of_lt (show t - h < N by omega)]
    have e2 : h + (t - h) = t := by omega
    rw [e2, Nat.mod_eq_of_lt ht]
  · rw [Nat.mod_eq_of_lt (show t + N - h < N by omega)]
    have e2 : h + (t + N - h) = t + N := by omega
    rw [e2, Nat.add_mod_right, Nat.mod_eq_of_lt ht]

theorem ring_dist_spit {N h t : Nat} (hh : h < N) (ht : t < N) (hne : h ≠ t) :
    (t + N - (h + 1) % N) % N + 1 = (t + N - h) % N := by
  rcases Nat.lt_or_ge (h + 1) N with hlt | hge
  · rw [Nat.mod_eq_of_lt hlt]
    rcases le_or_lt h t with hle | hgt
    · have hle' : h + 1 ≤ t := by omega
      have e1 : t + N - (h + 1) = (t - (h + 1)) + N := by omega
      have e2 : t + N - h = (t - h) + N := by omega
      rw [e1, e2, Nat.add_mod_right, Nat.add_mod_right,
        Nat.mod_eq_of_lt (show t - (h + 1) < N by omega),
        Nat.mod_eq_of_lt (show t - h < N by omega)]
      omega
    · rw [Nat.mod_eq_of_lt (show t + N - (h + 1) < N by omega),
        Nat.mod_eq_of_lt (show t + N - h < N by omega)]
      omega
  · have hEq : h + 1 = N := by omega
    have h0 : (h + 1) % N = 0 := by rw [hEq, Nat.mod_self]
    rw [h0]
    have ht' : t < h := by omega
    have e1 : t + N - 0 = t + N := by omega
    rw [e1, Nat.add_mod_right, Nat.mod_eq_of_lt ht,
      Nat.mod_eq_of_lt (show t + N - h < N by omega)]
    omega

theorem ring_idx_inj {N h i j : Nat} (hi : i < N) (hj : j < N)
    (hij : (h + i) % N = (h + j) % N) : i = j := by
  have h1 : i ≡ j [MOD N] := Nat.ModEq.add_left_cancel' h hij
  have h2 : i % N = j % N := h1
  rw [Nat.mod_eq_of_lt hi, Nat.mod_eq_of_lt hj] at h2
  exact h2

namespace spsc

/-! ### Basic equations for the ring operations -/

theorem sink_value_eq_of_full {T : Type} {N : Nat} {b : SPSCEphemeral T N} (v : T)
    (h : (b.tail + 1) % N = b.head) : sink_value b v = (Except.error v, b) := by
  simp [sink_value, h]

theorem sink_value_eq_of_free {T : Type} {N : Nat} {b : SPSCEphemeral T N} (v : T)
    (h : (b.tail + 1) % N ≠ b.head) :
    sink_value b v =
      (Except.ok (), ⟨b.bufr.set b.tail v, b.head, (b.tail + 1) % N⟩) := by
  simp [sink_value, h]

theorem spit_value_eq_of_empty {T : Type} {N : Nat} [Inhabited T]
    {b : SPSCEphemeral T N} (h : b.head = b.tail) :
    spit_value b = (none, b) := by
  simp [spit_value, h]

theorem spit_value_eq_of_nonempty {T : Type} {N : Nat} [Inhabited T]
    {b : SPSCEphemeral T N} (h : b.head ≠ b.tail) :
    spit_value b =
      (some (b.bufr.getD b.head default), ⟨b.bufr, (b.head + 1) % N, b.tail⟩) := by
  simp [spit_value, h]

/-! ### Invariant preservation -/

theorem Inv_new {T : Type} [Inhabited T] {N : Nat} (hN : 0 < N) :
    Inv (SPSCEphemeral.new T N) := by
  refine ⟨?_, hN, hN⟩
  simp [SPSCEphemeral.new]

theorem Inv_sink {T : Type} {N : Nat} (hN : 0 < N) {b : SPSCEphemeral T N}
    (hb : Inv b) (v : T) : Inv (sink_value b v).2 := by
  by_cases h : (b.tail + 1) % N = b.head
  · rw [sink_value_eq_of_full v h]
    exact hb
  · rw [sink_value_eq_of_free v h]
    exact ⟨by simp [List.length_set, hb.1], hb.2.1, Nat.mod_lt _ hN⟩

theorem Inv_spit {T : Type} {N : Nat} [Inhabited T] (hN : 0 < N)
    {b : SPSCEphemeral T N} (hb : Inv b) : Inv (spit_value b).2 := by
  by_cases h : b.head = b.tail
  · rw [spit_value_eq_of_empty h]
    exact hb
  · rw [spit_value_eq_of_nonempty h]
    exact ⟨hb.1, Nat.mod_lt _ hN, hb.2.2⟩

/-! ### Evolution of the logical FIFO content -/

theorem contents_new {T : Type} [Inhabited T] (N : Nat) :
    contents (SPSCEphemeral.new T N) = [] := by
  simp [contents, SPSCEphemeral.new, Nat.sub_self]

theorem contents_empty_iff {T : Type} {N : Nat} [Inhabited T]
    {b : SPSCEphemeral T N} (hb : Inv b) :
    contents b = [] ↔ b.head = b.tail := by
  rw [contents, List.map_eq_nil_iff, List.range_eq_nil]
  exact ring_dist_zero hb.2.1 hb.2.2

theorem contents_sink {T : Type} {N : Nat} [Inhabited T] (hN : 0 < N)
    {b : SPSCEphemeral T N} (hb : Inv b) (v : T)
    (h : (b.tail + 1) % N ≠ b.head) :
    contents (sink_value b v).2 = contents b ++ [v] := by
  obtain ⟨hlen, hh, ht⟩ := hb
  rw [sink_value_eq_of_free v h]
  show (List.range (((b.tail + 1) % N + N - b.head) % N)).map
      (fun i => (b.bufr.set b.tail v).getD ((b.head + i) % N) default) =
    contents b ++ [v]
  rw [ring_dist_sink hh ht h, List.range_succ, List.map_append]
  congr 1
  · apply List.map_congr_left
    intro i hi
    have hiR : i < (b.tail + N - b.head) % N := List.mem_range.mp hi
    have hdlt : (b.tail + N - b.head) % N < N := Nat.mod_lt _ hN
    have hne : b.tail ≠ (b.head + i) % N := by
      intro hEq
      have hslot : (b.head + i) % N = (b.head + (b.tail + N - b.head) % N) % N := by
        rw [ring_slot_sink hh ht]
        exact hEq.symm
      have := ring_idx_inj (lt_trans hiR hdlt) hdlt hslot
      omega
    exact getD_set_ne _ hne _ _
  · show [(b.bufr.set b.tail v).getD ((b.head + (b.tail + N - b.head) % N) % N) default] = [v]
    rw [ring_slot_sink hh ht, getD_set_self _ (by omega) _ _]

theorem contents_spit {T : Type} {N : Nat} [Inhabited T]
    {b : SPSCEphemeral T N} (hb : Inv b) (h : b.head ≠ b.tail) :
    contents b = b.bufr.getD b.head default :: contents (spit_value b).2 := by
  obtain ⟨hlen, hh, ht⟩ := hb
  rw [spit_value_eq_of_nonempty h]
  show contents b =
    b.bufr.getD b.head default ::
      (List.range ((b.tail + N - (b.head + 1) % N) % N)).map
        (fun i => b.bufr.getD (((b.head + 1) % N + i) % N) default)
  rw [contents, ← ring_dist_spit hh ht h, List.range_succ_eq_map, List.map_cons]
  congr 1
  · rw [Nat.add_zero, Nat.mod_eq_of_lt hh]
  · rw [List.map_map]
    apply List.map_congr_left
    intro i hi
    show b.bufr.getD ((b.head + Nat.succ i) % N) default =
      b.bufr.getD (((b.head + 1) % N + i) % N) default
    rw [Nat.mod_add_mod]
    congr 2
    omega

/-! ### The session invariant: accepted values = popped values ++ ring content -/

/-- Invariant of a client session: the ring state is well formed and the
accepted values are exactly the popped values followed by what is still in
the ring. -/
def TraceInv {T : Type} {N : Nat} [Inhabited T] (r : RunState T N) : Prop :=
  Inv r.st ∧ r.acc = r.pop ++ contents r.st

theorem stepTrace_inv {T : Type} {N : Nat} [Inhabited T] (hN : 0 < N)
    {r : RunState T N} (hr : TraceInv r) (op : Op T) :
    TraceInv (stepTrace r op) := by
  obtain ⟨hInv, hAcc⟩ := hr
  cases op with
  | sink v =>
      by_cases h : (r.st.tail + 1) % N = r.st.head
      · simpa [stepTrace, sink_value_eq_of_full v h] using
          And.intro hInv hAcc
      · have hc := contents_sink hN hInv v h
        have hI := Inv_sink hN hInv v
        rw [sink_value_eq_of_free v h] at hc hI
        simp only [stepTrace, sink_value_eq_of_free v h]
        refine ⟨hI, ?_⟩
        rw [hc, hAcc, List.append_assoc]
  | spit =>
      by_cases h : r.st.head = r.st.tail
      · simpa [stepTrace, spit_value_eq_of_empty h] using
          And.intro hInv hAcc
      · have hc := contents_spit hInv h
        have hI := Inv_spit hN hInv
        rw [spit_value_eq_of_nonempty h] at hc hI
        simp only [stepTrace, spit_value_eq_of_nonempty h]
        refine ⟨hI, ?_⟩
        rw [hAcc, hc, List.append_assoc]
        rfl

theorem foldl_stepTrace_inv {T : Type} {N : Nat} [Inhabited T] (hN : 0 < N)
    (ops : List (Op T)) (r : RunState T N) (hr : TraceInv r) :
    TraceInv (ops.foldl stepTrace r) := by
  induction ops generalizing r with
  | nil => exact hr
  | cons op ops ih =>
      exact ih _ (stepTrace_inv hN hr op)

theorem runTrace_inv {T : Type} {N : Nat} [Inhabited T] (hN : 0 < N)
    (ops : List (Op T)) : TraceInv (runTrace N ops) := by
  refine foldl_stepTrace_inv hN ops _ ⟨Inv_new hN, ?_⟩
  simp [contents_new]

end spsc

namespace spsc

/-! ### Consecutive pushes from a ring with space, consecutive pops of the content -/

theorem sinkSeq_all_ok {T : Type} {N : Nat} (vs : List T) :
    ∀ (b : SPSCEphemeral T N), Inv b → b.head = 0 →
      b.tail + vs.length < N →
      (sinkSeq b vs).1 = vs.map (fun _ => Except.ok ()) ∧
      (sinkSeq b vs).2.head = 0 ∧
      (sinkSeq b vs).2.tail = b.tail + vs.length ∧
      Inv (sinkSeq b vs).2 := by
  induction vs with
  | nil =>
      intro b hb hh hroom
      simpa [sinkSeq] using ⟨hh, hb⟩
  | cons v vs ih =>
      intro b hb hh hroom
      have hroom' : b.tail + vs.length + 1 < N := by
        simp only [List.length_cons] at hroom
        omega
      have hfree : (b.tail + 1) % N ≠ b.head := by
        rw [hh, Nat.mod_eq_of_lt (show b.tail + 1 < N by omega)]
        omega
      have hstep := sink_value_eq_of_free v hfree
      have hnext : (b.tail + 1) % N = b.tail + 1 :=
        Nat.mod_eq_of_lt (by omega)
      have hInv' : Inv (⟨b.bufr.set b.tail v, b.head, b.tail + 1⟩ :
          SPSCEphemeral T N) :=
        ⟨by simp [List.length_set, hb.1], hb.2.1, show b.tail + 1 < N by omega⟩
      have hrec := ih ⟨b.bufr.set b.tail v, b.head, b.tail + 1⟩ hInv' hh
        (show b.tail + 1 + vs.length < N by omega)
      simp only [sinkSeq, hstep, hnext]
      refine ⟨?_, hrec.2.1, ?_, hrec.2.2.2⟩
      · simp [hrec.1]
      · rw [hrec.2.2.1]
        simp only [List.length_cons]
        omega

theorem spitSeq_drain {T : Type} {N : Nat} [Inhabited T] (hN : 0 < N) :
    ∀ (k : Nat) (b : SPSCEphemeral T N), Inv b → (contents b).length = k →
      (spitSeq b k).1 = contents b := by
  intro k
  induction k with
  | zero =>
      intro b hb hk
      rw [List.length_eq_zero] at hk
      simp [spitSeq, hk]
  | succ k ih =>
      intro b hb hk
      have hne : b.head ≠ b.tail := by
        intro hEq
        rw [← contents_empty_iff hb, ← List.length_eq_zero] at hEq
        omega
      have hc := contents_spit hb hne
      have hI := Inv_spit hN hb
      have hstep := spit_value_eq_of_nonempty hne
      rw [hstep] at hc hI
      have hlen' : (contents (⟨b.bufr, (b.head + 1) % N, b.tail⟩ :
          SPSCEphemeral T N)).length = k := by
        have := congrArg List.length hc
        simp at this
        omega
      have hrec := ih ⟨b.bufr, (b.head + 1) % N, b.tail⟩ hI hlen'
      simp only [spitSeq, hstep]
      rw [hc]
      simp [hrec]

/-! ### Capacity one: the fresh ring is a fixed point of every operation -/

theorem stepTrace_fixed_one {T : Type} [Inhabited T] (r : RunState T 1)
    (h : r.st = SPSCEphemeral.new T 1) (op : Op T) : stepTrace r op = r := by
  obtain ⟨st, acc, pop⟩ := r
  have h' : st = SPSCEphemeral.new T 1 := h
  subst h'
  cases op with
  | sink v =>
      simp [stepTrace, sink_value, SPSCEphemeral.new]
  | spit =>
      simp [stepTrace, spit_value, SPSCEphemeral.new]

theorem foldl_fixed_one {T : Type} [Inhabited T] (ops : List (Op T)) :
    ∀ (r : RunState T 1), r.st = SPSCEphemeral.new T 1 →
      ops.foldl stepTrace r = r := by
  induction ops with
  | nil => intro r _; rfl
  | cons op ops ih =>
      intro r h
      rw [List.foldl_cons, stepTrace_fixed_one r h op, ih r h]

end spsc

/-! ### Correspondence between the fixed-16 buffer and the generic ring at 16 -/

theorem smsc_sink_toGeneric {T : Type} (b : smsc.EphemeralBuffer T) (v : T) :
    spsc.sink_value (smsc.toGeneric b) v =
      ((smsc.sink_value b v).1, smsc.toGeneric (smsc.sink_value b v).2) := by
  by_cases h : (b.tail + 1) % smsc.N = b.head
  · have h16 : (b.tail + 1) % 16 = b.head := by rwa [smsc.N] at h
    simp [spsc.sink_value, smsc.sink_value, smsc.toGeneric, smsc.N, h16]
  · have h16 : (b.tail + 1) % 16 ≠ b.head := by rwa [smsc.N] at h
    simp [spsc.sink_value, smsc.sink_value, smsc.toGeneric, smsc.N, h16]

theorem smsc_spit_toGeneric {T : Type} [Inhabited T] (b : smsc.EphemeralBuffer T) :
    spsc.spit_value (smsc.toGeneric b) =
      ((smsc.spit_value b).1, smsc.toGeneric (smsc.spit_value b).2) := by
  by_cases h : b.head = b.tail
  · simp [spsc.spit_value, smsc.spit_value, smsc.toGeneric, smsc.N, h]
  · simp [spsc.spit_value, smsc.spit_value, smsc.toGeneric, smsc.N, h]

/-- Correspondence between a fixed-16 session state and a generic-ring
session state at capacity 16. -/
def corr {T : Type} (r : smsc.RunState T) (g : spsc.RunState T 16) : Prop :=
  smsc.toGeneric r.st = g.st ∧ r.acc = g.acc ∧ r.pop = g.pop

theorem corr_step {T : Type} [Inhabited T] {r : smsc.RunState T}
    {g : spsc.RunState T 16} (h : corr r g) (op : Op T) :
    corr (smsc.stepTrace r op) (spsc.stepTrace g op) := by
  obtain ⟨hst, hacc, hpop⟩ := h
  cases op with
  | sink v =>
      have hcomm := smsc_sink_toGeneric r.st v
      simp only [smsc.stepTrace, spsc.stepTrace, ← hst, hcomm]
      cases hres : (smsc.sink_value r.st v).1 <;>
        simp [corr, hacc, hpop, hres]
  | spit =>
      have hcomm := smsc_spit_toGeneric r.st
      simp only [smsc.stepTrace, spsc.stepTrace, ← hst, hcomm]
      cases hres : (smsc.spit_value r.st).1 <;>
        simp [corr, hacc, hpop, hres]

theorem corr_foldl {T : Type} [Inhabited T] (ops : List (Op T)) :
    ∀ {r : smsc.RunState T} {g : spsc.RunState T 16}, corr r g →
      corr (ops.foldl smsc.stepTrace r) (ops.foldl spsc.stepTrace g) := by
  induction ops with
  | nil => intro r g h; exact h
  | cons op ops ih =>
      intro r g h
      exact ih (corr_step h op)

theorem corr_runTrace {T : Type} [Inhabited T] (ops : List (Op T)) :
    corr (smsc.runTrace ops) (spsc.runTrace 16 ops) := by
  apply corr_foldl
  refine ⟨?_, rfl, rfl⟩
  simp [smsc.toGeneric, smsc.EphemeralBuffer.new, spsc.SPSCEphemeral.new, smsc.N]

/-- Memory orderings named by `std::sync::atomic::Ordering` that this
codebase uses. -/
inductive MemOrdering where
  | relaxed
  | acquire
  | release
deriving DecidableEq, Repr

/-- Orderings used by the two atomic loads at the top of a ring operation. -/
structure LoadOrders where
  headLoad : MemOrdering
  tailLoad : MemOrdering
deriving DecidableEq, Repr

/-- Transcription of the atomic-load orderings of `spit_value`
(`src/ephemeral/spsc.rs` lines 44-45): `b.head.load(Ordering::Acquire)` then
`b.tail.load(Ordering::Relaxed)`. -/
def spit_value_loads : LoadOrders :=
  ⟨MemOrdering.acquire, MemOrdering.relaxed⟩

/-- Transcription of the atomic-load orderings of the fixed-16 `spit_value`
(`src/ephemeral/smsc.rs` lines 44-45): identical to the generic one. -/
def smsc_spit_value_loads : LoadOrders :=
  ⟨MemOrdering.acquire, MemOrdering.relaxed⟩

/-- Transcription of the atomic-load orderings of `sink_value`
(`src/ephemeral/spsc.rs` lines 28-29): `b.head.load(Ordering::Acquire)` then
`b.tail.load(Ordering::Relaxed)`. -/
def sink_value_loads : LoadOrders :=
  ⟨MemOrdering.acquire, MemOrdering.relaxed⟩

/-- Orderings the spec's pop contract prescribes: `tail` read with acquire
(pairing with the producer's release store to `tail`), `head` read with
relaxed. -/
def spec_pop_loads : LoadOrders :=
  ⟨MemOrdering.relaxed, MemOrdering.acquire⟩

/-! ### Claims -/

/-- C1: sequential FIFO behaviour of the ring.  For every capacity `N ≥ 2`
and every sequence of `sink_value` / `spit_value` calls starting from the
freshly constructed ring, the sequence of values returned by successful
`spit_value` calls is exactly a prefix of the sequence of values accepted
(`Ok`) by `sink_value`, in order, with no duplication and no loss: the
accepted sequence is the popped sequence followed by what is still
pending in the ring. -/
theorem C1_fifo_order {T : Type} [Inhabited T] (N : Nat) (hN : 2 ≤ N)
    (ops : List (Op T)) :
    ∃ pending : List T,
      (spsc.runTrace N ops).acc = (spsc.runTrace N ops).pop ++ pending := by
  have h := spsc.runTrace_inv (T := T) (N := N) (by omega) ops
  exact ⟨spsc.contents (spsc.runTrace N ops).st, h.2⟩

theorem C1_fifo_order_witness :
    2 ≤ 3 ∧ ∃ pending : List Int,
      (spsc.runTrace 3 [Op.sink 5, Op.sink 7, Op.spit]).acc =
        (spsc.runTrace 3 [Op.sink 5, Op.sink 7, Op.spit]).pop ++ pending :=
  ⟨by decide, C1_fifo_order 3 (by decide) [Op.sink 5, Op.sink 7, Op.spit]⟩

/-- C2: full condition and atomicity on rejection.  For every well-formed
ring state, `sink_value b v` returns `Err v` (the original value) exactly
when `(tail + 1) % N = head`; in that case the state is completely
unchanged; otherwise it writes `v` into slot `tail`, advances `tail` to
`(tail + 1) % N` and returns `Ok ()`.  The same rejection behaviour holds
for the fixed-16 `sink_value` of `smsc.rs`. -/
theorem C2_sink_full_rejection {T : Type} {N : Nat}
    (b : spsc.SPSCEphemeral T N) (_hb : spsc.Inv b) (v : T) :
    ((spsc.sink_value b v).1 = Except.error v ↔ (b.tail + 1) % N = b.head) ∧
    ((b.tail + 1) % N = b.head → (spsc.sink_value b v).2 = b) ∧
    ((b.tail + 1) % N ≠ b.head →
      (spsc.sink_value b v).1 = Except.ok () ∧
      (spsc.sink_value b v).2 =
        ⟨b.bufr.set b.tail v, b.head, (b.tail + 1) % N⟩) ∧
    (∀ c : smsc.EphemeralBuffer T,
      ((smsc.sink_value c v).1 = Except.error v ↔
        (c.tail + 1) % smsc.N = c.head) ∧
      ((c.tail + 1) % smsc.N = c.head → (smsc.sink_value c v).2 = c)) := by
  refine ⟨?_, ?_, ?_, ?_⟩
  · by_cases h : (b.tail + 1) % N = b.head
    · simp [spsc.sink_value_eq_of_full v h, h]
    · simp [spsc.sink_value_eq_of_free v h, h]
  · intro h
    rw [spsc.sink_value_eq_of_full v h]
  · intro h
    rw [spsc.sink_value_eq_of_free v h]
    exact ⟨rfl, rfl⟩
  · intro c
    constructor
    · by_cases h : (c.tail + 1) % smsc.N = c.head
      · simp [smsc.sink_value, h]
      · simp [smsc.sink_value, h]
    · intro h
      simp [smsc.sink_value, h]

theorem C2_sink_full_rejection_witness :
    spsc.Inv (⟨[1, 2], 0, 1⟩ : spsc.SPSCEphemeral Int 2) ∧
    (spsc.sink_value (⟨[1, 2], 0, 1⟩ : spsc.SPSCEphemeral Int 2) 5).1 =
      Except.error 5 :=
  ⟨by decide,
   ((C2_sink_full_rejection (⟨[1, 2], 0, 1⟩ : spsc.SPSCEphemeral Int 2)
      (by decide) 5).1).mpr (by decide)⟩

/-- C3: boundary correctness.  From a freshly constructed capacity-`N` ring
(`N ≥ 2`), the first `N - 1` consecutive `sink_value` calls all return `Ok`;
the `N`-th `sink_value` call (with no intervening pop) returns `Err`
carrying the pushed value with the state unchanged; after one successful
`spit_value` the next `sink_value` returns `Ok` again. -/
theorem C3_boundary {T : Type} [Inhabited T] (N : Nat) (hN : 2 ≤ N)
    (vs : List T) (hlen : vs.length = N - 1) (w x : T) :
    (spsc.sinkSeq (spsc.SPSCEphemeral.new T N) vs).1 =
      vs.map (fun _ => Except.ok ()) ∧
    spsc.sink_value (spsc.sinkSeq (spsc.SPSCEphemeral.new T N) vs).2 w =
      (Except.error w, (spsc.sinkSeq (spsc.SPSCEphemeral.new T N) vs).2) ∧
    ((spsc.spit_value (spsc.sinkSeq (spsc.SPSCEphemeral.new T N) vs).2).1).isSome
      = true ∧
    (spsc.sink_value
        (spsc.spit_value (spsc.sinkSeq (spsc.SPSCEphemeral.new T N) vs).2).2
        x).1 = Except.ok () := by
  have hN0 : 0 < N := by omega
  have hb0 : spsc.Inv (spsc.SPSCEphemeral.new T N) := spsc.Inv_new hN0
  have hroom : (spsc.SPSCEphemeral.new T N).tail + vs.length < N := by
    simp only [spsc.SPSCEphemeral.new]
    omega
  have hseq := spsc.sinkSeq_all_ok vs (spsc.SPSCEphemeral.new T N) hb0 rfl hroom
  obtain ⟨hres, hhead, htail, hInv⟩ := hseq
  have htail' : (spsc.sinkSeq (spsc.SPSCEphemeral.new T N) vs).2.tail = N - 1 := by
    rw [htail]
    simp only [spsc.SPSCEphemeral.new]
    omega
  have hfull : ((spsc.sinkSeq (spsc.SPSCEphemeral.new T N) vs).2.tail + 1) % N =
      (spsc.sinkSeq (spsc.SPSCEphemeral.new T N) vs).2.head := by
    rw [htail', hhead, show N - 1 + 1 = N by omega, Nat.mod_self]
  have hne : (spsc.sinkSeq (spsc.SPSCEphemeral.new T N) vs).2.head ≠
      (spsc.sinkSeq (spsc.SPSCEphemeral.new T N) vs).2.tail := by
    rw [hhead, htail']
    omega
  refine ⟨hres, spsc.sink_value_eq_of_full w hfull, ?_, ?_⟩
  · rw [spsc.spit_value_eq_of_nonempty hne]
    rfl
  · rw [spsc.spit_value_eq_of_nonempty hne]
    have hfree : ((spsc.sinkSeq (spsc.SPSCEphemeral.new T N) vs).2.tail + 1) % N ≠
        ((spsc.sinkSeq (spsc.SPSCEphemeral.new T N) vs).2.head + 1) % N := by
      rw [hhead, htail', show N - 1 + 1 = N by omega, Nat.mod_self,
        Nat.mod_eq_of_lt (show 0 + 1 < N by omega)]
      omega
    rw [spsc.sink_value_eq_of_free x hfree]

theorem C3_boundary_witness :
    2 ≤ 2 ∧ ([(5 : Int)] : List Int).length = 2 - 1 ∧
    spsc.sink_value (spsc.sinkSeq (spsc.SPSCEphemeral.new Int 2) [5]).2 7 =
      (Except.error 7, (spsc.sinkSeq (spsc.SPSCEphemeral.new Int 2) [5]).2) :=
  ⟨by decide, by decide,
   (C3_boundary 2 (by decide) [5] (by decide) 7 9).2.1⟩

/-- C4: empty indicator.  `spit_value` returns `none` exactly when
`head = tail`, leaving the state unchanged in that case, and the mailbox's
`get` returns `none` exactly when `packed` is false, leaving the state
unchanged in that case; on a freshly constructed ring or mailbox the first
`spit_value` / `get` returns `none`. -/
theorem C4_empty_indicator {T : Type} [Inhabited T] {N : Nat}
    (b : spsc.SPSCEphemeral T N) (s : EphemeralSource T) :
    ((spsc.spit_value b).1 = none ↔ b.head = b.tail) ∧
    (b.head = b.tail → (spsc.spit_value b).2 = b) ∧
    (s.get.1 = none ↔ s.packed = false) ∧
    (s.packed = false → s.get.2 = s) ∧
    (spsc.spit_value (spsc.SPSCEphemeral.new T N)).1 = none ∧
    ((EphemeralSource.new T).get).1 = none := by
  refine ⟨?_, ?_, ?_, ?_, ?_, ?_⟩
  · by_cases h : b.head = b.tail
    · simp [spsc.spit_value_eq_of_empty h, h]
    · simp [spsc.spit_value_eq_of_nonempty h, h]
  · intro h
    rw [spsc.spit_value_eq_of_empty h]
  · cases hp : s.packed <;> simp [EphemeralSource.get, hp]
  · intro h
    simp [EphemeralSource.get, h]
  · simp [spsc.spit_value, spsc.SPSCEphemeral.new]
  · simp [EphemeralSource.get, EphemeralSource.new]

theorem C4_empty_indicator_witness :
    (spsc.spit_value (⟨[1, 2], 1, 1⟩ : spsc.SPSCEphemeral Int 2)).1 = none ∧
    ((⟨3, true⟩ : EphemeralSource Int).get.1 = none ↔
      (⟨3, true⟩ : EphemeralSource Int).packed = false) :=
  ⟨((C4_empty_indicator (⟨[1, 2], 1, 1⟩ : spsc.SPSCEphemeral Int 2)
      (⟨3, true⟩ : EphemeralSource Int)).1).mpr rfl,
   (C4_empty_indicator (⟨[1, 2], 1, 1⟩ : spsc.SPSCEphemeral Int 2)
      (⟨3, true⟩ : EphemeralSource Int)).2.2.1⟩

/-- C5: round-trip identity.  If `sink_value b v` is accepted, then popping
until `v` reaches the front delivers exactly the previous ring content
followed by `v` itself — `v` comes out once, structurally identical,
neither duplicated nor dropped.  For the mailbox, `set v` invoked when
`occupied` is false sets the flag with `v` in the slot, and a subsequent
`get` returns `some v` and clears the flag. -/
theorem C5_round_trip {T : Type} [Inhabited T] {N : Nat} (hN : 0 < N)
    (b : spsc.SPSCEphemeral T N) (hb : spsc.Inv b) (v : T)
    (hok : (spsc.sink_value b v).1 = Except.ok ())
    (s : EphemeralSource T) (_hs : s.packed = false) :
    (spsc.spitSeq (spsc.sink_value b v).2 ((spsc.contents b).length + 1)).1 =
      spsc.contents b ++ [v] ∧
    (s.set v).packed = true ∧ (s.set v).value = v ∧
    (s.set v).get = (some v, ⟨v, false⟩) := by
  have hfree : (b.tail + 1) % N ≠ b.head := by
    intro h
    rw [spsc.sink_value_eq_of_full v h] at hok
    exact absurd hok (by simp)
  have hc := spsc.contents_sink hN hb v hfree
  have hI := spsc.Inv_sink hN hb v
  have hlen : (spsc.contents (spsc.sink_value b v).2).length =
      (spsc.contents b).length + 1 := by
    rw [hc]
    simp
  have hdrain := spsc.spitSeq_drain hN ((spsc.contents b).length + 1)
    (spsc.sink_value b v).2 hI hlen
  refine ⟨by rw [hdrain, hc], rfl, rfl, ?_⟩
  simp [EphemeralSource.set, EphemeralSource.get]

theorem C5_round_trip_witness :
    0 < 3 ∧ spsc.Inv (⟨[0, 0, 0], 0, 0⟩ : spsc.SPSCEphemeral Int 3) ∧
    (spsc.spitSeq
        (spsc.sink_value (⟨[0, 0, 0], 0, 0⟩ : spsc.SPSCEphemeral Int 3) 5).2
        ((spsc.contents (⟨[0, 0, 0], 0, 0⟩ : spsc.SPSCEphemeral Int 3)).length
          + 1)).1 =
      spsc.contents (⟨[0, 0, 0], 0, 0⟩ : spsc.SPSCEphemeral Int 3) ++ [5] :=
  ⟨by decide, by decide,
   (C5_round_trip (by decide) (⟨[0, 0, 0], 0, 0⟩ : spsc.SPSCEphemeral Int 3)
      (by decide) 5 rfl (⟨0, false⟩ : EphemeralSource Int) rfl).1⟩

/-- C6: frame effect.  A successful `sink_value` modifies only `tail` and
the single slot at the old `tail` index, leaving `head` and all other slots
unchanged; a successful `spit_value` modifies only `head`, leaving `tail`
and the whole slot array unchanged; the mailbox's `set` and `get` touch only
the `packed` flag and the single slot. -/
theorem C6_frame_effect {T : Type} [Inhabited T] {N : Nat}
    (b : spsc.SPSCEphemeral T N) (v : T) (s : EphemeralSource T) :
    ((spsc.sink_value b v).1 = Except.ok () →
      (spsc.sink_value b v).2.head = b.head ∧
      (spsc.sink_value b v).2.bufr = b.bufr.set b.tail v ∧
      ∀ j, j ≠ b.tail → (spsc.sink_value b v).2.bufr[j]? = b.bufr[j]?) ∧
    ((spsc.spit_value b).1.isSome = true →
      (spsc.spit_value b).2.tail = b.tail ∧
      (spsc.spit_value b).2.bufr = b.bufr) ∧
    ((s.set v).value = v ∧ (s.set v).packed = true) ∧
    (s.packed = true → s.get.2.value = s.value ∧ s.get.2.packed = false) := by
  refine ⟨?_, ?_, ⟨rfl, rfl⟩, ?_⟩
  · intro hok
    have hfree : (b.tail + 1) % N ≠ b.head := by
      intro h
      rw [spsc.sink_value_eq_of_full v h] at hok
      exact absurd hok (by simp)
    rw [spsc.sink_value_eq_of_free v hfree]
    refine ⟨rfl, rfl, ?_⟩
    intro j hj
    exact List.getElem?_set_ne (fun hc => hj hc.symm)
  · intro hsome
    have hne : b.head ≠ b.tail := by
      intro h
      rw [spsc.spit_value_eq_of_empty h] at hsome
      simp at hsome
    rw [spsc.spit_value_eq_of_nonempty hne]
    exact ⟨rfl, rfl⟩
  · intro hp
    simp [EphemeralSource.get, hp]

theorem C6_frame_effect_witness :
    (spsc.sink_value (⟨[1, 2, 3], 0, 1⟩ : spsc.SPSCEphemeral Int 3) 9).2.head =
      (⟨[1, 2, 3], 0, 1⟩ : spsc.SPSCEphemeral Int 3).head ∧
    (spsc.spit_value (⟨[1, 2, 3], 0, 1⟩ : spsc.SPSCEphemeral Int 3)).2.bufr =
      (⟨[1, 2, 3], 0, 1⟩ : spsc.SPSCEphemeral Int 3).bufr :=
  ⟨((C6_frame_effect (⟨[1, 2, 3], 0, 1⟩ : spsc.SPSCEphemeral Int 3) 9
      (⟨0, false⟩ : EphemeralSource Int)).1 rfl).1,
   ((C6_frame_effect (⟨[1, 2, 3], 0, 1⟩ : spsc.SPSCEphemeral Int 3) 9
      (⟨0, false⟩ : EphemeralSource Int)).2.1 rfl).2⟩

/-- C7: variant equivalence.  The fixed-16 `EphemeralBuffer` of `smsc.rs`
and the generic `SPSCEphemeral` at capacity 16 are the same algorithm: the
fresh states correspond, `sink_value` and `spit_value` commute with the
correspondence map returning identical results, and every sequence of
operations from the fresh states yields corresponding states with identical
accepted and popped values. -/
theorem C7_variant_equivalence {T : Type} [Inhabited T] (ops : List (Op T)) :
    smsc.toGeneric (smsc.runTrace ops).st = (spsc.runTrace 16 ops).st ∧
    (smsc.runTrace ops).acc = (spsc.runTrace 16 ops).acc ∧
    (smsc.runTrace ops).pop = (spsc.runTrace 16 ops).pop ∧
    smsc.toGeneric (smsc.EphemeralBuffer.new T) = spsc.SPSCEphemeral.new T 16 ∧
    (∀ (c : smsc.EphemeralBuffer T) (v : T),
      spsc.sink_value (smsc.toGeneric c) v =
        ((smsc.sink_value c v).1, smsc.toGeneric (smsc.sink_value c v).2)) ∧
    (∀ c : smsc.EphemeralBuffer T,
      spsc.spit_value (smsc.toGeneric c) =
        ((smsc.spit_value c).1, smsc.toGeneric (smsc.spit_value c).2)) := by
  have h := corr_runTrace (T := T) ops
  refine ⟨h.1, h.2.1, h.2.2, ?_, smsc_sink_toGeneric, smsc_spit_toGeneric⟩
  simp [smsc.toGeneric, smsc.EphemeralBuffer.new, spsc.SPSCEphemeral.new, smsc.N]

/-- C8: the claim states that the pop operation loads `tail` with acquire
ordering and `head` with relaxed ordering.  The code does the opposite: in
both `src/ephemeral/spsc.rs` (lines 44-45) and `src/ephemeral/smsc.rs`
(lines 44-45), `spit_value` loads `head` with `Ordering::Acquire` and
`tail` with `Ordering::Relaxed`, so its load orderings differ from the
spec's pop contract (which is the classic SPSC discipline the code's own
cross-thread test relies on). -/
theorem C8_pop_load_orderings :
    spit_value_loads.headLoad = MemOrdering.acquire ∧
    spit_value_loads.tailLoad = MemOrdering.relaxed ∧
    smsc_spit_value_loads = spit_value_loads ∧
    spit_value_loads ≠ spec_pop_loads := by
  refine ⟨rfl, rfl, rfl, ?_⟩
  decide

/-- C9: index-bounds safety invariant.  For every capacity `N ≥ 1`, every
sequence of `sink_value` / `spit_value` calls starting from the freshly
constructed ring keeps `head` and `tail` strictly below `N` while the arena
keeps exactly `N` cells, so the slot accesses at index `tail` in
`sink_value` and at index `head` in `spit_value` are always in bounds and
neither function can panic. -/
theorem C9_index_bounds {T : Type} [Inhabited T] (N : Nat) (hN : 1 ≤ N)
    (ops : List (Op T)) :
    (spsc.runTrace N ops).st.head < N ∧ (spsc.runTrace N ops).st.tail < N ∧
      (spsc.runTrace N ops).st.bufr.length = N := by
  have h := (spsc.runTrace_inv (T := T) (N := N) hN ops).1
  exact ⟨h.2.1, h.2.2, h.1⟩

theorem C9_index_bounds_witness :
    1 ≤ 2 ∧ (spsc.runTrace 2 [Op.sink (5 : Int), Op.spit, Op.spit]).st.head < 2 :=
  ⟨by decide, (C9_index_bounds 2 (by decide) [Op.sink 5, Op.spit, Op.spit]).1⟩

/-- C10: degenerate capacity `N = 1`.  Every state reachable from the
freshly constructed capacity-1 ring is the fresh state itself; there
`sink_value` returns `Err` carrying its argument for every input value and
`spit_value` returns `none`, so the structure can never hold or deliver any
value. -/
theorem C10_capacity_one {T : Type} [Inhabited T] (ops : List (Op T)) (v : T) :
    (spsc.runTrace 1 ops).st = spsc.SPSCEphemeral.new T 1 ∧
    (spsc.sink_value (spsc.runTrace 1 ops).st v).1 = Except.error v ∧
    (spsc.spit_value (spsc.runTrace 1 ops).st).1 = none ∧
    (spsc.runTrace 1 ops).pop = [] := by
  have hfix : spsc.runTrace 1 ops =
      ⟨spsc.SPSCEphemeral.new T 1, [], []⟩ := by
    rw [spsc.runTrace]
    exact spsc.foldl_fixed_one ops _ rfl
  rw [hfix]
  refine ⟨rfl, ?_, ?_, rfl⟩
  · simp [spsc.sink_value, spsc.SPSCEphemeral.new]
  · simp [spsc.spit_value, spsc.SPSCEphemeral.new]

end Brainstorm
